import Mathlib

/-!
# Verification of the iterative trace engine (ml-under-the-hood-site)

Shallow embedding, in Lean 4, of the algorithm modules of the repository
(`app/algos/em.py`, `app/algos/kmeans.py`, `app/algos/linreg.py`,
`app/algos/regularization.py`, `app/algos/pca.py`) at the granularity needed
by the claims under scrutiny:

* the EM trace loop `EM.fit_and_trace` and the data generator `GMM3d`;
* the EM expectation/maximization numerics (responsibility normalization
  with its `1e-12` floor, the mixture-weight update, the covariance update
  with its `1e-6` diagonal regularizer);
* the shared gradient-descent trace loop of
  `LinearRegression.fit_and_trace` / `RidgeRegression.fit_and_trace` /
  `LassoRegression.fit_and_trace` (identical control flow, differing only in
  the cost and gradient callbacks, which are therefore parameters here);
* the ridge and lasso gradients (`_compute_gradient`);
* the K-Means centroid update `KMeans.update_centroids` with its
  empty-cluster relocation policy;
* the PCA `standardize` helper and the validation prologue of
  `generateGaussian`;
* the seeding discipline of the five trace entry points, with the global
  numpy RNG modelled as explicit state and `time.perf_counter` modelled as
  explicit clock inputs.

Machine floats are modelled by exact rationals (`ℚ`); the PCA standardizer,
whose specification needs a square root, is modelled over `ℝ`.  Randomness
and transcendental kernels (Gaussian pdf values, numpy samplers) enter as
explicit function parameters so the surrounding control flow — which is what
the claims are about — is embedded exactly.
-/

/-- Lifecycle tag of a step record, as the `"type"` string field of the
Python step dictionaries (`"init"`, `"update"`, `"converged"`). -/
inductive StepType where
  | init
  | update
  | converged
deriving DecidableEq, Repr

namespace EMmod

/-- One step record of the EM trace (`em.py`, `fit_and_trace`): `t` is the
iteration index, `rtype` the `"type"` tag, `snapshot` the π/μ/Σ state dumped
in the payload of `init`/`update` records (absent on the terminal record),
`loglike` the `"loglike"` payload field (absent on the `init` record).
The numeric solver state is the type parameter `σ`. -/
structure EMRecord (σ : Type) where
  t : Nat
  rtype : StepType
  snapshot : Option σ
  loglike : Option ℚ
deriving DecidableEq

/-- Loop body of `EM.fit_and_trace` (`em.py` lines 120-134): for
`i = iStart, iStart+1, ...` while fuel lasts, run the expectation step
(which returns the new state together with the log-likelihood value it
appends to `log_likelihood_history`), then the maximization step, then
append an `update` record carrying the new state and that log-likelihood. -/
def emLoop {σ : Type} (estep : σ → σ × ℚ) (mstep : σ → σ) :
    Nat → Nat → σ → List (EMRecord σ) → List ℚ →
    List (EMRecord σ) × σ × List ℚ
  | 0, _, s, steps, hist => (steps, s, hist)
  | fuel + 1, i, s, steps, hist =>
    let e := estep s
    let s2 := mstep e.1
    emLoop estep mstep fuel (i + 1) s2
      (steps ++ [⟨i, .update, some s2, some e.2⟩]) (hist ++ [e.2])

/-- `EM.fit_and_trace` (`em.py` lines 100-143): emit the `t = 0` `init`
record, run `num_iters` expectation/maximization pairs emitting one `update`
record each, then emit the terminal `converged` record whose payload reads
`self.log_likelihood_history[-1]`.  Reading the last element of an empty
history raises `IndexError` in Python; that failure is modelled by `none`. -/
def fit_and_trace {σ : Type} (estep : σ → σ × ℚ) (mstep : σ → σ)
    (s0 : σ) (num_iters : Nat) :
    Option (List (EMRecord σ) × List ℚ) :=
  let res := emLoop estep mstep num_iters 1 s0 [⟨0, .init, some s0, none⟩] []
  match res.2.2.getLast? with
  | none => none
  | some ll => some (res.1 ++ [⟨num_iters + 1, .converged, none, some ll⟩], res.2.2)

/-- The `X` matrix built by `GMM3d` (`em.py` lines 4-42): `K` clusters are
sampled, each of `n // K` points (`n_cluster_size = n // K`), and stacked
with `np.vstack`.  The actual multivariate-normal draw is the parameter
`draw` (cluster index, point index ↦ sample); `np.random.multivariate_normal`
with `size=m` returns exactly `m` rows. -/
def GMM3d_X (K n : Nat) (draw : Nat → Nat → List ℚ) : List (List ℚ) :=
  ((List.range K).map (fun i => (List.range (n / K)).map (fun j => draw i j))).flatten

/-- The `meta["n"]` field assembled by `run_em_trace` (`em.py` line 160):
`int(X.shape[0])`, the actual row count of the generated matrix. -/
def run_em_trace_meta_n (X : List (List ℚ)) : Nat := X.length

/-- Default record used only as the `List.getD` fallback in statements. -/
def dfltRec (σ : Type) : EMRecord σ := ⟨0, .init, none, none⟩

/-- Characterization of the EM trace loop: starting at index `i` with `fuel`
iterations left, it appends exactly `fuel` update records (with consecutive
`t` indices starting at `i`) and `fuel` log-likelihood entries. -/
theorem emLoop_spec {σ : Type} (estep : σ → σ × ℚ) (mstep : σ → σ) :
    ∀ (fuel i : Nat) (s : σ) (steps : List (EMRecord σ)) (hist : List ℚ),
    ∃ T L sF, emLoop estep mstep fuel i s steps hist = (steps ++ T, sF, hist ++ L) ∧
      T.length = fuel ∧ L.length = fuel ∧
      ∀ k, k < fuel →
        (T.getD k (dfltRec σ)).rtype = .update ∧ (T.getD k (dfltRec σ)).t = i + k := by
  intro fuel
  induction fuel with
  | zero =>
    intro i s steps hist
    exact ⟨[], [], s, by simp [emLoop], rfl, rfl, by omega⟩
  | succ n ih =>
    intro i s steps hist
    obtain ⟨T, L, sF, hEq, hT, hL, hidx⟩ :=
      ih (i + 1) (mstep (estep s).1)
        (steps ++ [⟨i, .update, some (mstep (estep s).1), some (estep s).2⟩])
        (hist ++ [(estep s).2])
    refine ⟨⟨i, .update, some (mstep (estep s).1), some (estep s).2⟩ :: T,
      (estep s).2 :: L, sF, ?_, by simp [hT], by simp [hL], ?_⟩
    · rw [emLoop]
      simpa using hEq
    · intro k hk
      match k with
      | 0 => simp
      | k + 1 =>
        have := hidx k (by omega)
        simpa [Nat.add_assoc, Nat.add_comm 1 k] using this

/-- C1: for every `num_iters ≥ 1`, `EM.fit_and_trace` succeeds and returns
exactly `num_iters + 2` step records — the `t = 0` `init` record, one
`update` record with `t = i` for each `i = 1 .. num_iters`, and a terminal
`converged` record with `t = num_iters + 1` — together with a
log-likelihood history of exactly `num_iters` entries; no early-stopping
predicate shortens the loop (the count is exact for every solver kernel). -/
theorem em_fit_and_trace_shape {σ : Type} (estep : σ → σ × ℚ) (mstep : σ → σ)
    (s0 : σ) (num_iters : Nat) (h1 : 1 ≤ num_iters) :
    ∃ steps hist, fit_and_trace estep mstep s0 num_iters = some (steps, hist) ∧
      steps.length = num_iters + 2 ∧ hist.length = num_iters ∧
      (steps.getD 0 (dfltRec σ)).rtype = .init ∧
      (steps.getD 0 (dfltRec σ)).t = 0 ∧
      (∀ i, 1 ≤ i → i ≤ num_iters →
        (steps.getD i (dfltRec σ)).rtype = .update ∧
        (steps.getD i (dfltRec σ)).t = i) ∧
      (∃ r, steps.getLast? = some r ∧ r.rtype = .converged ∧
        r.t = num_iters + 1) := by
  obtain ⟨T, L, sF, hEq, hT, hL, hidx⟩ :=
    emLoop_spec estep mstep num_iters 1 s0 [⟨0, .init, some s0, none⟩] []
  have hLne : L ≠ [] := by
    intro hnil
    rw [hnil] at hL
    simp at hL
    omega
  obtain ⟨ll, hll⟩ : ∃ ll, L.getLast? = some ll := by
    cases hLast : L.getLast? with
    | none => exact absurd (List.getLast?_eq_none_iff.mp hLast) hLne
    | some ll => exact ⟨ll, rfl⟩
  refine ⟨([⟨0, .init, some s0, none⟩] ++ T) ++
      [⟨num_iters + 1, .converged, none, some ll⟩], L, ?_, ?_, hL, ?_, ?_, ?_, ?_⟩
  · rw [fit_and_trace, hEq]
    simp [hll]
  · simp [hT]
  · simp
  · simp
  · intro i hi1 hi2
    have hlt : i - 1 < T.length := by omega
    have hgd : (([(⟨0, .init, some s0, none⟩ : EMRecord σ)] ++ T) ++
        [(⟨num_iters + 1, .converged, none, some ll⟩ : EMRecord σ)]).getD i (dfltRec σ) =
        T.getD (i - 1) (dfltRec σ) := by
      rw [List.getD_append _ _ _ _ (by simp; omega)]
      match i, hi1 with
      | i + 1, _ => simp
    rw [hgd]
    have hik := hidx (i - 1) (by omega)
    refine ⟨hik.1, ?_⟩
    rw [hik.2]
    omega
  · exact ⟨_, List.getLast?_concat _, rfl, rfl⟩

/-- C1 witness: at `num_iters = 20` (the `K=4, seed=7, n=600` scenario's
iteration count) the trace has exactly 22 step records and a history of
length 20, for a concrete solver kernel. -/
theorem em_fit_and_trace_shape_witness :
    ∃ steps hist,
      fit_and_trace (fun _ : Unit => ((), (0 : ℚ))) id () 20 = some (steps, hist) ∧
      steps.length = 22 ∧ hist.length = 20 := by
  obtain ⟨steps, hist, hEq, hLen, hHist, -⟩ :=
    em_fit_and_trace_shape (fun _ : Unit => ((), (0 : ℚ))) id () 20 (by omega)
  exact ⟨steps, hist, hEq, hLen, hHist⟩

/-- C10: `EM.fit_and_trace` requires `num_iters ≥ 1` — with `num_iters = 0`
the loop body never runs, `log_likelihood_history` stays empty, and the
terminal `converged` record reads `log_likelihood_history[-1]` of an empty
list, so the call fails (an `IndexError` in Python, `none` here) instead of
returning a trace, for every solver kernel and state. -/
theorem em_fit_and_trace_zero_iters {σ : Type} (estep : σ → σ × ℚ)
    (mstep : σ → σ) (s0 : σ) :
    fit_and_trace estep mstep s0 0 = none := rfl

/-- C9: for every `K ≥ 1` the `GMM3d` generator returns a feature matrix of
exactly `K * (n / K)` rows (`K` clusters of `n // K` points each), and
`run_em_trace` reports this actual row count as `meta.n`; whenever `K` does
not divide `n` that count is strictly less than the requested `n`. -/
theorem gmm3d_rows (K n : Nat) (draw : Nat → Nat → List ℚ) (_hK : 1 ≤ K) :
    run_em_trace_meta_n (GMM3d_X K n draw) = K * (n / K) ∧
    (¬ K ∣ n → run_em_trace_meta_n (GMM3d_X K n draw) < n) := by
  have hlen : run_em_trace_meta_n (GMM3d_X K n draw) = K * (n / K) := by
    simp [run_em_trace_meta_n, GMM3d_X, List.length_flatten, List.map_map,
      Function.comp_def, Nat.mul_comm]
  refine ⟨hlen, fun hdvd => ?_⟩
  have hmod : n % K ≠ 0 := fun h => hdvd (Nat.dvd_of_mod_eq_zero h)
  have hdm := Nat.div_add_mod n K
  omega

/-- C9 witness: `K = 4`, `n = 6` gives `4 * (6 / 4) = 4` rows, fewer than
the requested 6, and `meta.n` reports 4. -/
theorem gmm3d_rows_witness :
    run_em_trace_meta_n (GMM3d_X 4 6 (fun _ _ => [0, 0, 0])) = 4 ∧
    run_em_trace_meta_n (GMM3d_X 4 6 (fun _ _ => [0, 0, 0])) < 6 := by
  have h := gmm3d_rows 4 6 (fun _ _ => [0, 0, 0]) (by omega)
  exact ⟨by rw [h.1], h.2 (by decide)⟩

end EMmod

namespace GD

/-!
Shared gradient-descent trace loop of `LinearRegression.fit_and_trace`
(`linreg.py` lines 114-180), `RidgeRegression.fit_and_trace`
(`regularization.py` lines 135-198) and `LassoRegression.fit_and_trace`
(`regularization.py` lines 263-326).  The three loops are textually
identical up to extra payload fields derived from the same state; they
differ only in `_compute_cost` / `_compute_gradient`, which appear here as
the `cost` and `grad` parameters.
-/

/-- One step record of a regression trace: `t`, the `"type"` tag, the
`weights` and `gradient` payload entries (present only on the record kinds
that carry them in the Python payloads) and the `cost` payload entry. -/
structure GDRecord where
  t : Nat
  rtype : StepType
  weights : Option (List ℚ)
  gradient : Option (List ℚ)
  cost : ℚ
deriving DecidableEq

/-- The early-stopping threshold `1e-8` of the `fit_and_trace` loops. -/
def gdEps : ℚ := 1 / 10 ^ 8

variable (cost : List ℚ → ℚ) (grad : List ℚ → List ℚ) (lr : ℚ) (w0 : List ℚ)

/-- One weight update `w ← w − η · gradient` (`self.weights -=
self.learning_rate * gradient`), elementwise on the weight vector. -/
def gdUpdate (w : List ℚ) : List ℚ :=
  List.zipWith (fun wi gi => wi - lr * gi) w (grad w)

/-- The deterministic weight trajectory of the loop: `gdW n` is the weight
vector after `n` updates from the initial weights `w0`. -/
def gdW : Nat → List ℚ
  | 0 => w0
  | n + 1 => gdUpdate grad lr (gdW n)

/-- `gdCost n` is `cost_history[n]`: the cost after `n` updates. -/
def gdCost (n : Nat) : ℚ := cost (gdW grad lr w0 n)

/-- The early-stopping test of iteration `i ≥ 1`:
`abs(cost_history[-2] - cost_history[-1]) < 1e-8`, i.e.
`|cost_history[i-1] - cost_history[i]| < 1e-8`.  (The Python guard
`len(cost_history) > 1` always holds inside the loop, since the initial
cost is appended before the loop starts.) -/
def stopP (i : Nat) : Prop :=
  |gdCost cost grad lr w0 (i - 1) - gdCost cost grad lr w0 i| < gdEps

instance stopP_dec (i : Nat) : Decidable (stopP cost grad lr w0 i) := by
  unfold stopP
  infer_instance

/-- Loop body of the three `fit_and_trace` functions: at iteration `i`,
compute the gradient, update the weights, append the cost to the history,
append the `update` record, then break with an inline `converged` record at
`t = i + 1` if the last two costs differ by less than `1e-8`. -/
def gdLoop : Nat → Nat → List ℚ → ℚ → List GDRecord → List ℚ →
    List GDRecord × List ℚ
  | 0, _, _, _, steps, hist => (steps, hist)
  | fuel + 1, i, w, cPrev, steps, hist =>
    let g := grad w
    let w2 := List.zipWith (fun wi gi => wi - lr * gi) w g
    let c := cost w2
    let steps2 := steps ++ [⟨i, .update, some w2, some g, c⟩]
    let hist2 := hist ++ [c]
    if |cPrev - c| < gdEps then
      (steps2 ++ [⟨i + 1, .converged, none, none, c⟩], hist2)
    else
      gdLoop fuel (i + 1) w2 c steps2 hist2

/-- The `t = 0` `init` record. -/
def gdInitRec : GDRecord := ⟨0, .init, some w0, none, cost w0⟩

/-- The `update` record of iteration `i`. -/
def updRec (i : Nat) : GDRecord :=
  ⟨i, .update, some (gdW grad lr w0 i), some (grad (gdW grad lr w0 (i - 1))),
    gdCost cost grad lr w0 i⟩

/-- A `converged` record (its payload is just a cost). -/
def convRec (t : Nat) (c : ℚ) : GDRecord := ⟨t, .converged, none, none, c⟩

/-- The Python guard `steps[-1]["type"] == "converged"` (the step list is
never empty there, so the `none` branch is unreachable). -/
def endsConverged (steps : List GDRecord) : Bool :=
  match steps.getLast? with
  | some r => r.rtype == .converged
  | none => false

/-- `fit_and_trace`: emit the `init` record, run the loop for at most
`num_iters` iterations, and append the synthetic terminal `converged`
record with `t = num_iters + 1` if the loop did not end on an inline one
(`if steps[-1]["type"] != "converged"`); its payload cost is
`cost_history[-1]` (the history is never empty: it starts as the singleton
initial cost, so the `getD` fallback is never taken). -/
def fit_and_trace (num_iters : Nat) : List GDRecord × List ℚ :=
  let c0 := cost w0
  let res := gdLoop cost grad lr num_iters 1 w0 c0 [gdInitRec cost w0] [c0]
  if endsConverged res.1 then res
  else (res.1 ++ [convRec (num_iters + 1) (res.2.getLast?.getD 0)], res.2)

/-- `endsConverged` looks only at the last record. -/
theorem endsConverged_concat (X : List GDRecord) (a : GDRecord) :
    endsConverged (X ++ [a]) = (a.rtype == .converged) := by
  unfold endsConverged
  rw [List.getLast?_concat]

/-- Unfolding of one loop iteration along the weight trajectory. -/
theorem gdLoop_succ_W (fuel i : Nat) (hi : 1 ≤ i)
    (steps : List GDRecord) (hist : List ℚ) :
    gdLoop cost grad lr (fuel + 1) i (gdW grad lr w0 (i - 1))
        (gdCost cost grad lr w0 (i - 1)) steps hist =
      if |gdCost cost grad lr w0 (i - 1) - gdCost cost grad lr w0 i| < gdEps then
        (steps ++ [updRec cost grad lr w0 i] ++
          [convRec (i + 1) (gdCost cost grad lr w0 i)],
         hist ++ [gdCost cost grad lr w0 i])
      else
        gdLoop cost grad lr fuel (i + 1) (gdW grad lr w0 i)
          (gdCost cost grad lr w0 i)
          (steps ++ [updRec cost grad lr w0 i])
          (hist ++ [gdCost cost grad lr w0 i]) := by
  obtain ⟨k, rfl⟩ : ∃ k, i = k + 1 := ⟨i - 1, by omega⟩
  rfl

/-- If the stopping test fails throughout the window, the loop runs its
full fuel, appending one `update` record and one cost per iteration. -/
theorem gdLoop_no_stop :
    ∀ (fuel i : Nat), 1 ≤ i →
    (∀ j, i ≤ j → j < i + fuel → ¬ stopP cost grad lr w0 j) →
    ∀ (steps : List GDRecord) (hist : List ℚ),
    gdLoop cost grad lr fuel i (gdW grad lr w0 (i - 1))
        (gdCost cost grad lr w0 (i - 1)) steps hist =
      (steps ++ (List.range fuel).map (fun k => updRec cost grad lr w0 (i + k)),
       hist ++ (List.range fuel).map (fun k => gdCost cost grad lr w0 (i + k))) := by
  intro fuel
  induction fuel with
  | zero =>
    intro i hi hns steps hist
    simp [gdLoop]
  | succ n ih =>
    intro i hi hns steps hist
    rw [gdLoop_succ_W cost grad lr w0 n i hi]
    have hstop : ¬ stopP cost grad lr w0 i := hns i (by omega) (by omega)
    rw [if_neg (by unfold stopP at hstop; exact hstop)]
    have hrec := ih (i + 1) (by omega)
      (fun j hj1 hj2 => hns j (by omega) (by omega))
      (steps ++ [updRec cost grad lr w0 i])
      (hist ++ [gdCost cost grad lr w0 i])
    simp only [Nat.add_sub_cancel] at hrec
    rw [hrec]
    rw [List.range_succ_eq_map, List.map_cons, List.map_cons,
      List.map_map, List.map_map]
    have h1 : ((List.range n).map (fun k => updRec cost grad lr w0 (i + 1 + k))) =
        (List.range n).map ((fun k => updRec cost grad lr w0 (i + k)) ∘ Nat.succ) := by
      refine List.map_congr_left (fun a _ => ?_)
      simp [Function.comp]
      congr 1
      omega
    have h2 : ((List.range n).map (fun k => gdCost cost grad lr w0 (i + 1 + k))) =
        (List.range n).map ((fun k => gdCost cost grad lr w0 (i + k)) ∘ Nat.succ) := by
      refine List.map_congr_left (fun a _ => ?_)
      simp [Function.comp]
      congr 1
      omega
    rw [h1, h2]
    simp

/-- If the stopping test first succeeds at iteration `j` inside the window,
the loop emits the `update` records of iterations `i .. j` followed by the
inline `converged` record with `t = j + 1`, and stops. -/
theorem gdLoop_stop :
    ∀ (fuel i j : Nat), 1 ≤ i → i ≤ j → j < i + fuel →
    stopP cost grad lr w0 j →
    (∀ l, i ≤ l → l < j → ¬ stopP cost grad lr w0 l) →
    ∀ (steps : List GDRecord) (hist : List ℚ),
    gdLoop cost grad lr fuel i (gdW grad lr w0 (i - 1))
        (gdCost cost grad lr w0 (i - 1)) steps hist =
      (steps ++ (List.range (j - i + 1)).map (fun k => updRec cost grad lr w0 (i + k)) ++
        [convRec (j + 1) (gdCost cost grad lr w0 j)],
       hist ++ (List.range (j - i + 1)).map (fun k => gdCost cost grad lr w0 (i + k))) := by
  intro fuel
  induction fuel with
  | zero =>
    intro i j hi hij hjf
    omega
  | succ n ih =>
    intro i j hi hij hjf hstop hmin steps hist
    rw [gdLoop_succ_W cost grad lr w0 n i hi]
    by_cases hji : j = i
    · subst hji
      rw [if_pos (by unfold stopP at hstop; exact hstop)]
      have h1 : j - j + 1 = 1 := by omega
      have hro : List.range 1 = [0] := rfl
      rw [h1]
      simp [hro]
    · have hlt : i < j := by omega
      rw [if_neg (by
        have := hmin i (by omega) (by omega)
        unfold stopP at this
        exact this)]
      have hrec := ih (i + 1) j (by omega) (by omega) (by omega) hstop
        (fun l hl1 hl2 => hmin l (by omega) hl2)
        (steps ++ [updRec cost grad lr w0 i])
        (hist ++ [gdCost cost grad lr w0 i])
      simp only [Nat.add_sub_cancel] at hrec
      rw [hrec]
      have hrange : j - i + 1 = (j - (i + 1) + 1) + 1 := by omega
      have hsplitU : (List.range (j - i + 1)).map
            (fun k => updRec cost grad lr w0 (i + k)) =
          updRec cost grad lr w0 i ::
            (List.range (j - (i + 1) + 1)).map
              (fun k => updRec cost grad lr w0 (i + 1 + k)) := by
        rw [hrange, List.range_succ_eq_map, List.map_cons, List.map_map]
        refine congrArg₂ List.cons (by simp) (List.map_congr_left (fun a _ => ?_))
        simp [Function.comp]
        congr 1
        omega
      have hsplitC : (List.range (j - i + 1)).map
            (fun k => gdCost cost grad lr w0 (i + k)) =
          gdCost cost grad lr w0 i ::
            (List.range (j - (i + 1) + 1)).map
              (fun k => gdCost cost grad lr w0 (i + 1 + k)) := by
        rw [hrange, List.range_succ_eq_map, List.map_cons, List.map_map]
        refine congrArg₂ List.cons (by simp) (List.map_congr_left (fun a _ => ?_))
        simp [Function.comp]
        congr 1
        omega
      rw [hsplitU, hsplitC]
      simp

/-- The last entry of the cost history after `n` loop iterations is the
cost of the `n`-th weight iterate. -/
theorem hist_getLast (n : Nat) :
    (([cost w0] ++ (List.range n).map
      (fun k => gdCost cost grad lr w0 (1 + k))).getLast?).getD 0 =
    gdCost cost grad lr w0 n := by
  match n with
  | 0 => rfl
  | m + 1 =>
    rw [List.range_succ, List.map_append]
    simp only [List.map_cons, List.map_nil, ← List.append_assoc]
    rw [List.getLast?_concat]
    simp only [Option.getD_some]
    exact congrArg (gdCost cost grad lr w0) (by omega)

/-- Case analysis of `fit_and_trace`: either the early-stopping test first
succeeds at some iteration `j ≤ num_iters` and the trace is the `init`
record, `j` `update` records, and the inline `converged` record at
`t = j + 1`; or it never succeeds and the trace is the `init` record, the
full `num_iters` `update` records, and the synthetic terminal `converged`
record at `t = num_iters + 1`. -/
theorem fit_and_trace_cases (num_iters : Nat) :
    (∃ j, 1 ≤ j ∧ j ≤ num_iters ∧ stopP cost grad lr w0 j ∧
      (∀ l, 1 ≤ l → l < j → ¬ stopP cost grad lr w0 l) ∧
      fit_and_trace cost grad lr w0 num_iters =
        ([gdInitRec cost w0] ++
          (List.range j).map (fun k => updRec cost grad lr w0 (1 + k)) ++
          [convRec (j + 1) (gdCost cost grad lr w0 j)],
         [cost w0] ++
          (List.range j).map (fun k => gdCost cost grad lr w0 (1 + k)))) ∨
    ((∀ j, 1 ≤ j → j ≤ num_iters → ¬ stopP cost grad lr w0 j) ∧
      fit_and_trace cost grad lr w0 num_iters =
        ([gdInitRec cost w0] ++
          (List.range num_iters).map (fun k => updRec cost grad lr w0 (1 + k)) ++
          [convRec (num_iters + 1) (gdCost cost grad lr w0 num_iters)],
         [cost w0] ++
          (List.range num_iters).map (fun k => gdCost cost grad lr w0 (1 + k)))) := by
  by_cases hex : ∃ j, 1 ≤ j ∧ j ≤ num_iters ∧ stopP cost grad lr w0 j
  · left
    classical
    obtain ⟨j0, hj0⟩ := hex
    have hP : ∃ j, 1 ≤ j ∧ j ≤ num_iters ∧ stopP cost grad lr w0 j := ⟨j0, hj0⟩
    set jm := Nat.find hP with hjm
    obtain ⟨hm1, hm2, hm3⟩ := Nat.find_spec hP
    have hmin : ∀ l, 1 ≤ l → l < jm → ¬ stopP cost grad lr w0 l := by
      intro l hl1 hl2 hl3
      exact Nat.find_min hP hl2 ⟨hl1, by omega, hl3⟩
    have hloop := gdLoop_stop cost grad lr w0 num_iters 1 jm (by omega)
      (by omega) (by omega) hm3 (fun l h1 h2 => hmin l h1 h2)
      [gdInitRec cost w0] [cost w0]
    simp only [Nat.sub_self] at hloop
    have e1 : gdW grad lr w0 0 = w0 := rfl
    have e2 : gdCost cost grad lr w0 0 = cost w0 := rfl
    rw [e1, e2] at hloop
    have hsub : jm - 1 + 1 = jm := by omega
    rw [hsub] at hloop
    refine ⟨jm, hm1, hm2, hm3, hmin, ?_⟩
    rw [fit_and_trace]
    simp only [hloop]
    rw [endsConverged_concat]
    simp [convRec]
  · right
    have hall : ∀ j, 1 ≤ j → j ≤ num_iters → ¬ stopP cost grad lr w0 j := by
      intro j h1 h2 h3
      exact hex ⟨j, h1, h2, h3⟩
    refine ⟨hall, ?_⟩
    have hloop := gdLoop_no_stop cost grad lr w0 num_iters 1 (by omega)
      (fun j h1 h2 => hall j h1 (by omega)) [gdInitRec cost w0] [cost w0]
    simp only [Nat.sub_self] at hloop
    have e1 : gdW grad lr w0 0 = w0 := rfl
    have e2 : gdCost cost grad lr w0 0 = cost w0 := rfl
    rw [e1, e2] at hloop
    rw [fit_and_trace]
    simp only [hloop]
    have hlast := hist_getLast cost grad lr w0 num_iters
    match num_iters, hlast with
    | 0, hlast =>
      have hend : endsConverged ([gdInitRec cost w0] ++
          (List.range 0).map (fun k => updRec cost grad lr w0 (1 + k))) = false := rfl
      rw [hend]
      simp [convRec, hlast, e2, gdInitRec]
    | m + 1, hlast =>
      have hsplit : (List.range (m + 1)).map
            (fun k => updRec cost grad lr w0 (1 + k)) =
          (List.range m).map (fun k => updRec cost grad lr w0 (1 + k)) ++
            [updRec cost grad lr w0 (1 + m)] := by
        rw [List.range_succ, List.map_append]
        simp
      have hend : endsConverged ([gdInitRec cost w0] ++
          (List.range (m + 1)).map (fun k => updRec cost grad lr w0 (1 + k))) =
          false := by
        rw [hsplit, ← List.append_assoc, endsConverged_concat]
        rfl
      rw [hend]
      simp only [Bool.false_eq_true, if_false, hlast]

/-- Structural facts about a trace of the shape `init` record, `m` `update`
records, one final `converged` record. -/
theorem shape_facts (m t : Nat) (c : ℚ) :
    ([gdInitRec cost w0] ++
        (List.range m).map (fun k => updRec cost grad lr w0 (1 + k)) ++
        [convRec t c]).length = m + 2 ∧
    ([gdInitRec cost w0] ++
        (List.range m).map (fun k => updRec cost grad lr w0 (1 + k)) ++
        [convRec t c]).getLast? = some (convRec t c) ∧
    List.countP (fun r => r.rtype == StepType.converged)
      ([gdInitRec cost w0] ++
        (List.range m).map (fun k => updRec cost grad lr w0 (1 + k)) ++
        [convRec t c]) = 1 ∧
    (∀ r ∈ ([gdInitRec cost w0] ++
        (List.range m).map (fun k => updRec cost grad lr w0 (1 + k)) ++
        [convRec t c]), r.rtype = .converged → r = convRec t c) := by
  refine ⟨by simp, List.getLast?_concat _, ?_, ?_⟩
  · rw [List.countP_append, List.countP_append]
    have h1 : List.countP (fun r => r.rtype == StepType.converged)
        [gdInitRec cost w0] = 0 := rfl
    have h2 : List.countP (fun r => r.rtype == StepType.converged)
        ((List.range m).map (fun k => updRec cost grad lr w0 (1 + k))) = 0 := by
      rw [List.countP_eq_zero]
      intro a ha
      obtain ⟨k, -, rfl⟩ := List.mem_map.mp ha
      simp [updRec]
    rw [h1, h2]
    rfl
  · intro r hr hconv
    rcases List.mem_append.mp hr with hr1 | hr2
    · rcases List.mem_append.mp hr1 with hr3 | hr4
      · have : r = gdInitRec cost w0 := by simpa using hr3
        rw [this] at hconv
        exact absurd hconv (by simp [gdInitRec])
      · obtain ⟨k, -, rfl⟩ := List.mem_map.mp hr4
        exact absurd hconv (by simp [updRec])
    · simpa using hr2

/-- C4: for every cost/gradient pair (hence for linear, ridge and lasso
regression alike), every learning rate, initial weights and `num_iters`,
the step list of `fit_and_trace` ends with exactly one `converged` record:
if `|cost_history[j-1] - cost_history[j]| < 1e-8` first holds at an
iteration `1 ≤ j ≤ num_iters`, the record is emitted inline there (the list
is `init`, `j` updates, `converged` at `t = j + 1`), so early stopping
never fires before the first update; if the test never fires the loop runs
all `num_iters` iterations and a synthetic terminal `converged` record with
`t = num_iters + 1` is appended regardless.  Moreover a `converged` record
with `t ≤ 1` can only be the synthetic one of an empty run. -/
theorem gd_fit_and_trace_convergence (num_iters : Nat) :
    List.countP (fun r => r.rtype == StepType.converged)
      (fit_and_trace cost grad lr w0 num_iters).1 = 1 ∧
    (∃ r, (fit_and_trace cost grad lr w0 num_iters).1.getLast? = some r ∧
      r.rtype = .converged) ∧
    ((∀ j, 1 ≤ j → j ≤ num_iters → ¬ stopP cost grad lr w0 j) →
      (fit_and_trace cost grad lr w0 num_iters).1.length = num_iters + 2 ∧
      ∃ r, (fit_and_trace cost grad lr w0 num_iters).1.getLast? = some r ∧
        r.rtype = .converged ∧ r.t = num_iters + 1) ∧
    (∀ j, 1 ≤ j → j ≤ num_iters → stopP cost grad lr w0 j →
      (∀ l, 1 ≤ l → l < j → ¬ stopP cost grad lr w0 l) →
      (fit_and_trace cost grad lr w0 num_iters).1.length = j + 2 ∧
      ∃ r, (fit_and_trace cost grad lr w0 num_iters).1.getLast? = some r ∧
        r.rtype = .converged ∧ r.t = j + 1) ∧
    (∀ r ∈ (fit_and_trace cost grad lr w0 num_iters).1,
      r.rtype = .converged → r.t ≤ 1 → num_iters = 0) := by
  rcases fit_and_trace_cases cost grad lr w0 num_iters with
    ⟨j0, hj1, hj2, hjs, hjmin, hEq⟩ | ⟨hall, hEq⟩
  · obtain ⟨hlen, hlast, hcount, honly⟩ :=
      shape_facts cost grad lr w0 j0 (j0 + 1) (gdCost cost grad lr w0 j0)
    rw [hEq]
    refine ⟨hcount, ⟨_, hlast, rfl⟩, ?_, ?_, ?_⟩
    · intro hns
      exact absurd hjs (hns j0 hj1 hj2)
    · intro j h1 h2 hstop hmin
      have hj : j = j0 := by
        rcases lt_trichotomy j j0 with h | h | h
        · exact absurd hstop (hjmin j h1 h)
        · exact h
        · exact absurd hjs (hmin j0 hj1 h)
      subst hj
      exact ⟨hlen, ⟨_, hlast, rfl, rfl⟩⟩
    · intro r hr hconv ht
      have := honly r hr hconv
      rw [this] at ht
      simp [convRec] at ht
      omega
  · obtain ⟨hlen, hlast, hcount, honly⟩ :=
      shape_facts cost grad lr w0 num_iters (num_iters + 1)
        (gdCost cost grad lr w0 num_iters)
    rw [hEq]
    refine ⟨hcount, ⟨_, hlast, rfl⟩, ?_, ?_, ?_⟩
    · intro _
      exact ⟨hlen, ⟨_, hlast, rfl, rfl⟩⟩
    · intro j h1 h2 hstop _
      exact absurd hstop (hall j h1 h2)
    · intro r hr hconv ht
      have := honly r hr hconv
      rw [this] at ht
      simp [convRec] at ht
      omega

/-- C4 witness: with a constant cost function the test fires at the first
iteration, so the trace is `init`, one `update`, and the inline `converged`
record at `t = 2` — three records with exactly one `converged` at the
end. -/
theorem gd_fit_and_trace_convergence_witness :
    (fit_and_trace (fun _ => (0 : ℚ)) (fun w => w) 1 [1] 5).1.length = 3 ∧
    List.countP (fun r => r.rtype == StepType.converged)
      (fit_and_trace (fun _ => (0 : ℚ)) (fun w => w) 1 [1] 5).1 = 1 ∧
    (∃ r, (fit_and_trace (fun _ => (0 : ℚ)) (fun w => w) 1 [1] 5).1.getLast? =
      some r ∧ r.rtype = .converged ∧ r.t = 2) := by
  have h := gd_fit_and_trace_convergence (fun _ => (0 : ℚ)) (fun w => w) 1 [1] 5
  have hstop : stopP (fun _ => (0 : ℚ)) (fun w => w) 1 [1] 1 := by
    unfold stopP gdCost gdEps
    norm_num
  obtain ⟨hlen, hr⟩ := h.2.2.2.1 1 (by omega) (by omega) hstop (by omega)
  exact ⟨hlen, h.1, hr⟩

end GD

namespace Reg

/-!
The ridge and lasso gradients, `RidgeRegression._compute_gradient`
(`regularization.py` lines 117-133) and `LassoRegression._compute_gradient`
(`regularization.py` lines 245-261), in their `fit_intercept = True` branch
(the branch the claim is about).  Vectors and row-major matrices are lists
of exact rationals.
-/

/-- Dot product of two equally long vectors. -/
def dotQ (u v : List ℚ) : ℚ := (List.zipWith (· * ·) u v).sum

/-- Prepend the all-ones bias column:
`np.hstack([np.ones((n_samples, 1)), X])`. -/
def withBias (X : List (List ℚ)) : List (List ℚ) := X.map (fun r => 1 :: r)

/-- `X @ w` for a row-major matrix. -/
def matVec (X : List (List ℚ)) (w : List ℚ) : List ℚ :=
  X.map (fun row => dotQ row w)

/-- The columns of a rectangular row-major matrix with `d` columns
(numpy `X.T` as a list of rows of the transpose). -/
def colsOf (X : List (List ℚ)) (d : Nat) : List (List ℚ) :=
  (List.range d).map (fun j => X.map (fun r => r.getD j 0))

/-- The MSE gradient `(2 / n_samples) * X.T @ (X @ w - y)` shared by
`LinearRegression`, `RidgeRegression` and `LassoRegression` before the
penalty term is added. -/
def mseGradient (Xb : List (List ℚ)) (y w : List ℚ) : List ℚ :=
  (colsOf Xb (Xb.headD []).length).map
    (fun col => 2 / (Xb.length : ℚ) *
      dotQ col (List.zipWith (· - ·) (matVec Xb w) y))

/-- `np.sign`: `1` on positives, `-1` on negatives, `0` at `0`. -/
def npSign (x : ℚ) : ℚ := if 0 < x then 1 else if x < 0 then -1 else 0

/-- The slice update `gradient[1:] += f(weights[1:])` elementwise: the head
(bias) entry is left untouched, each tail entry `gi` becomes `gi + f wi`. -/
def addTailPenalty (f : ℚ → ℚ) (g w : List ℚ) : List ℚ :=
  match g, w with
  | g0 :: gt, _ :: wt => g0 :: List.zipWith (fun gi wi => gi + f wi) gt wt
  | g, _ => g

/-- `RidgeRegression._compute_gradient` with `fit_intercept = True`:
the MSE gradient over the bias-augmented matrix, then
`gradient[1:] += 2 * self.lambda_reg * self.weights[1:]`. -/
def ridgeGradient (X : List (List ℚ)) (y w : List ℚ) (lam : ℚ) : List ℚ :=
  addTailPenalty (fun wi => 2 * lam * wi) (mseGradient (withBias X) y w) w

/-- `LassoRegression._compute_gradient` with `fit_intercept = True`:
the MSE gradient over the bias-augmented matrix, then
`gradient[1:] += self.lambda_reg * np.sign(self.weights[1:])`. -/
def lassoGradient (X : List (List ℚ)) (y w : List ℚ) (lam : ℚ) : List ℚ :=
  addTailPenalty (fun wi => lam * npSign wi) (mseGradient (withBias X) y w) w

/-- Ridge gradient as the spec words it: the MSE gradient plus `2λw`, with
the bias entry (index 0) excluded from the penalty term. -/
def ridgeGradientSpec (X : List (List ℚ)) (y w : List ℚ) (lam : ℚ) : List ℚ :=
  (List.range (mseGradient (withBias X) y w).length).map
    (fun j => (mseGradient (withBias X) y w).getD j 0 +
      if j = 0 then 0 else 2 * lam * w.getD j 0)

/-- Lasso gradient as the spec words it: the MSE gradient plus
`λ·sign(w)`, with the bias entry excluded and the subgradient at `0`
taken as `0`. -/
def lassoGradientSpec (X : List (List ℚ)) (y w : List ℚ) (lam : ℚ) : List ℚ :=
  (List.range (mseGradient (withBias X) y w).length).map
    (fun j => (mseGradient (withBias X) y w).getD j 0 +
      if j = 0 then 0 else lam * npSign (w.getD j 0))

/-- The slice update equals the indexwise formula that skips index 0. -/
theorem addTailPenalty_spec (f : ℚ → ℚ) (g w : List ℚ)
    (hlen : w.length = g.length) :
    addTailPenalty f g w =
      (List.range g.length).map
        (fun j => g.getD j 0 + if j = 0 then 0 else f (w.getD j 0)) := by
  match g, w, hlen with
  | [], [], _ => rfl
  | g0 :: gt, w0 :: wt, hlen =>
    have hlt : wt.length = gt.length := by simpa using hlen
    apply List.ext_getElem
    · simp [addTailPenalty, hlt]
    · intro i h1 h2
      match i with
      | 0 => simp [addTailPenalty]
      | k + 1 =>
        have hk : k < gt.length := by
          simpa [addTailPenalty, hlt] using h1
        simp only [addTailPenalty, List.getElem_cons_succ, List.getElem_map,
          List.getElem_range, List.getElem_zipWith]
        have e1 : (g0 :: gt).getD (k + 1) 0 = gt.getD k 0 := rfl
        have e2 : (w0 :: wt).getD (k + 1) 0 = wt.getD k 0 := rfl
        rw [e1, e2, List.getD_eq_getElem _ _ hk,
          List.getD_eq_getElem _ _ (by omega)]
        simp

/-- C5: with `fit_intercept` true, the ridge gradient is the MSE gradient
`(2/n)·Xᵗ·(Xw − y)` plus `2λw` with the bias entry (index 0) excluded, and
the lasso gradient is the MSE gradient plus `λ·sign(w)` with the bias entry
excluded and the subgradient at `w_j = 0` exactly `0` (so such coordinates
receive no penalty at all). -/
theorem gradients_match_spec (X : List (List ℚ)) (y w : List ℚ) (lam : ℚ)
    (hlen : w.length = (mseGradient (withBias X) y w).length) :
    ridgeGradient X y w lam = ridgeGradientSpec X y w lam ∧
    lassoGradient X y w lam = lassoGradientSpec X y w lam ∧
    npSign 0 = 0 ∧
    (∀ j, 1 ≤ j → w.getD j 0 = 0 →
      (lassoGradient X y w lam).getD j 0 =
        (mseGradient (withBias X) y w).getD j 0) := by
  have hridge : ridgeGradient X y w lam = ridgeGradientSpec X y w lam :=
    addTailPenalty_spec _ _ _ hlen
  have hlasso : lassoGradient X y w lam = lassoGradientSpec X y w lam :=
    addTailPenalty_spec _ _ _ hlen
  refine ⟨hridge, hlasso, rfl, ?_⟩
  intro j hj hw0
  rw [hlasso]
  by_cases hjlen : j < (mseGradient (withBias X) y w).length
  · unfold lassoGradientSpec
    rw [List.getD_eq_getElem _ _ (by simpa using hjlen)]
    simp only [List.getElem_map, List.getElem_range]
    rw [if_neg (by omega), hw0]
    have : npSign 0 = 0 := rfl
    rw [this, List.getD_eq_getElem _ _ hjlen]
    ring
  · unfold lassoGradientSpec
    rw [List.getD_eq_default _ _ (by simpa using hjlen),
      List.getD_eq_default _ _ (by omega)]

/-- C5 witness: a concrete 2-sample, 1-feature instance where both
gradients match their spec formulas and a zero tail weight receives no
lasso penalty. -/
theorem gradients_match_spec_witness :
    ridgeGradient [[1], [2]] [1, 2] [1, 0] 1 =
      ridgeGradientSpec [[1], [2]] [1, 2] [1, 0] 1 ∧
    (lassoGradient [[1], [2]] [1, 2] [1, 0] 1).getD 1 0 =
      (mseGradient (withBias [[1], [2]]) [1, 2] [1, 0]).getD 1 0 := by
  have h := gradients_match_spec [[1], [2]] [1, 2] [1, 0] 1 (by decide)
  exact ⟨h.1, h.2.2.2 1 (by omega) (by decide)⟩

end Reg

namespace EMnum

/-!
The numerical invariant of the EM expectation/maximization pair
(`em.py` lines 77-98).  The unnormalized responsibility matrix
`g i c = pi[c] * pdf(X_i | mu[c], sigma[c])` enters as an input (the
Gaussian density is transcendental; only its sign matters here), and the
normalization, flooring, and update arithmetic are embedded exactly.
-/

/-- `np.clip(x, lo, None)`. -/
def clipLo (x lo : ℚ) : ℚ := max x lo

/-- The `1e-12` floor used in `EM.expectation` and `EM.maximization`. -/
def emFloor : ℚ := 1 / 10 ^ 12

/-- The E-step row normalizer `denominator = np.sum(self.gamma, axis=1)`
computed on the unnormalized responsibilities `g`. -/
def rowDenom {N C : Nat} (g : Fin N → Fin C → ℚ) (i : Fin N) : ℚ := ∑ c, g i c

/-- The E-step normalization
`self.gamma /= np.clip(denominator, 1e-12, None)`. -/
def estepGamma {N C : Nat} (g : Fin N → Fin C → ℚ) : Fin N → Fin C → ℚ :=
  fun i c => g i c / clipLo (rowDenom g i) emFloor

/-- The M-step column mass `sum_prob = np.sum(self.gamma, axis=0)`. -/
def colMass {N C : Nat} (γ : Fin N → Fin C → ℚ) (c : Fin C) : ℚ := ∑ i, γ i c

/-- The M-step mixture-weight update
`self.pi = np.clip(sum_prob, 1e-12, None) / self.N`. -/
def mstepPi {N C : Nat} (γ : Fin N → Fin C → ℚ) (c : Fin C) : ℚ :=
  clipLo (colMass γ c) emFloor / N

/-- The M-step covariance update for one component:
`(diff.T @ (weights * diff)) / sum_prob[c] + 1e-6 * np.eye(d)`, entrywise:
entry `(a, b)` is `Σ_i (X i a − μ a) · w i · (X i b − μ b) / s` plus the
`1e-6` diagonal regularizer. -/
def mstepSigma {N d : Nat} (X : Fin N → Fin d → ℚ) (mu : Fin d → ℚ)
    (wt : Fin N → ℚ) (s : ℚ) (a b : Fin d) : ℚ :=
  (∑ i, (X i a - mu a) * wt i * (X i b - mu b)) / s +
    if a = b then 1 / 10 ^ 6 else 0

/-- A responsibility matrix with one fully collapsed row: row 0 is
`(0, 0)` (an underflowed density row, the degeneracy the `1e-12` floor
exists for) and row 1 is `(1, 1)`. -/
def gFloored : Fin 2 → Fin 2 → ℚ := fun i _ => if i = 0 then 0 else 1

/-- C6 counterexample: at a floor-clamped step the emitted mixture weights
do NOT sum to 1 within `1e-6`.  With `N = C = 2` and the collapsed row
`(0, 0)`, the E-step divides that row by the clipped floor `1e-12`,
leaving it summing to 0 instead of 1, and the M-step yields
`Σπ = 1/2 < 1 − 1e-6` — yet the step record is emitted as usual, so the
unconditional claim is false of the code. -/
theorem em_pi_sum_floored_counterexample :
    (∑ c, mstepPi (estepGamma gFloored) c) = 1 / 2 ∧
    (∑ c, mstepPi (estepGamma gFloored) c) < 1 - 1 / 10 ^ 6 := by
  have hval : (∑ c, mstepPi (estepGamma gFloored) c) = 1 / 2 := by
    norm_num [mstepPi, estepGamma, colMass, rowDenom, clipLo, emFloor,
      gFloored, Fin.sum_univ_two, max_def]
  refine ⟨hval, ?_⟩
  rw [hval]
  norm_num

/-- C6 amended: after every E-step/M-step pair the mixture weights are
nonnegative and every updated covariance matrix is symmetric,
unconditionally; the weights sum to 1 within `1e-6` (the sum lies in
`[1, 1 + 1e-6]`) at every step whose responsibility rows are nonnegative
and are not clipped by the `1e-12` floor — at a floor-clamped degenerate
step the sum can fall below `1 − 1e-6`, as the counterexample shows. -/
theorem em_step_invariants (N C dd : Nat) (g : Fin N → Fin C → ℚ) :
    (∀ c, 0 ≤ mstepPi (estepGamma g) c) ∧
    (∀ (X : Fin N → Fin dd → ℚ) (mu : Fin dd → ℚ) (wt : Fin N → ℚ) (s : ℚ)
      (a b : Fin dd), mstepSigma X mu wt s a b = mstepSigma X mu wt s b a) ∧
    (1 ≤ N → (∀ i c, 0 ≤ g i c) → (∀ i, emFloor ≤ rowDenom g i) →
      (C : ℚ) ≤ 10 ^ 6 * N →
      1 ≤ ∑ c, mstepPi (estepGamma g) c ∧
      (∑ c, mstepPi (estepGamma g) c) ≤ 1 + 1 / 10 ^ 6) := by
  have hfl : (0 : ℚ) < emFloor := by norm_num [emFloor]
  refine ⟨?_, ?_, ?_⟩
  · intro c
    unfold mstepPi
    exact div_nonneg (le_trans (le_of_lt hfl) (le_max_right _ _))
      (Nat.cast_nonneg N)
  · intro X mu wt s a b
    unfold mstepSigma
    have hsum : (∑ i, (X i a - mu a) * wt i * (X i b - mu b)) =
        ∑ i, (X i b - mu b) * wt i * (X i a - mu a) :=
      Finset.sum_congr rfl (fun i _ => by ring)
    rw [hsum]
    congr 1
    simp [eq_comm]
  · intro hN hnn hrow hC
    have hNpos : (0 : ℚ) < N := by exact_mod_cast hN
    have hdpos : ∀ i, 0 < rowDenom g i := fun i => lt_of_lt_of_le hfl (hrow i)
    have hclip : ∀ i, clipLo (rowDenom g i) emFloor = rowDenom g i :=
      fun i => max_eq_left (hrow i)
    have hγnn : ∀ i c, 0 ≤ estepGamma g i c := by
      intro i c
      unfold estepGamma
      rw [hclip i]
      exact div_nonneg (hnn i c) (le_of_lt (hdpos i))
    have hrowsum : ∀ i, (∑ c, estepGamma g i c) = 1 := by
      intro i
      unfold estepGamma
      rw [hclip i, ← Finset.sum_div]
      exact div_self (ne_of_gt (hdpos i))
    have hmass_nn : ∀ c, 0 ≤ colMass (estepGamma g) c := by
      intro c
      exact Finset.sum_nonneg (fun i _ => hγnn i c)
    have htot : (∑ c, colMass (estepGamma g) c) = N := by
      unfold colMass
      rw [Finset.sum_comm]
      rw [Finset.sum_congr rfl (fun i _ => hrowsum i)]
      simp
    have hsum_div : (∑ c, mstepPi (estepGamma g) c) =
        (∑ c, clipLo (colMass (estepGamma g) c) emFloor) / N := by
      unfold mstepPi
      rw [Finset.sum_div]
    constructor
    · rw [hsum_div]
      rw [le_div_iff₀ hNpos]
      calc (1 : ℚ) * N = ∑ c, colMass (estepGamma g) c := by rw [htot]; ring
        _ ≤ ∑ c, clipLo (colMass (estepGamma g) c) emFloor :=
            Finset.sum_le_sum (fun c _ => le_max_left _ _)
    · rw [hsum_div, div_le_iff₀ hNpos]
      have hub : (∑ c, clipLo (colMass (estepGamma g) c) emFloor) ≤
          (∑ c, colMass (estepGamma g) c) + C * emFloor := by
        have h1 : (∑ c, clipLo (colMass (estepGamma g) c) emFloor) ≤
            ∑ c, (colMass (estepGamma g) c + emFloor) :=
          Finset.sum_le_sum (fun c _ =>
            max_le (le_add_of_nonneg_right (le_of_lt hfl))
              (le_add_of_nonneg_left (hmass_nn c)))
        calc (∑ c, clipLo (colMass (estepGamma g) c) emFloor)
            ≤ ∑ c, (colMass (estepGamma g) c + emFloor) := h1
          _ = (∑ c, colMass (estepGamma g) c) + C * emFloor := by
              rw [Finset.sum_add_distrib]
              simp [mul_comm]

      calc (∑ c, clipLo (colMass (estepGamma g) c) emFloor)
          ≤ (∑ c, colMass (estepGamma g) c) + C * emFloor := hub
        _ = (N : ℚ) + C * emFloor := by rw [htot]
        _ ≤ (1 + 1 / 10 ^ 6) * N := by
            unfold emFloor
            nlinarith [hC, hNpos]

/-- C6 amended witness: a concrete `2 × 2` responsibility matrix with all
entries `1` (no row floored), for which the updated mixture weights sum to
at least 1. -/
theorem em_step_invariants_witness :
    1 ≤ ∑ c, mstepPi (estepGamma (fun _ _ : Fin 2 => (1 : ℚ))) c := by
  have h := em_step_invariants 2 2 1 (fun _ _ => (1 : ℚ))
  exact (h.2.2 (by omega) (fun _ _ => by norm_num)
    (fun i => by norm_num [rowDenom, emFloor, Fin.sum_univ_two])
    (by norm_num)).1

end EMnum

namespace KM

/-!
`KMeans.update_centroids` (`kmeans.py` lines 147-183).  The loop builds the
new centroid array cluster by cluster; an empty cluster is relocated to a
data point.  The only randomness (`np.random.choice(X.shape[0])`) enters as
the function `rand`, giving the data index drawn when handling cluster `k`.
-/

/-- Squared Euclidean distance `np.sum((x - c)**2)`. -/
def sqDist (u v : List ℚ) : ℚ :=
  ((List.zipWith (fun a b => a - b) u v).map (fun z => z ^ 2)).sum

/-- The points assigned to cluster `k`: `X[labels == k]`. -/
def clusterPoints (X : List (List ℚ)) (labels : List Nat) (k : Nat) :
    List (List ℚ) :=
  ((X.zip labels).filter (fun p => p.2 == k)).map (fun p => p.1)

/-- `np.mean(cluster_points, axis=0)` over a list of `d`-vectors. -/
def vecMean (pts : List (List ℚ)) (d : Nat) : List ℚ :=
  (List.range d).map (fun j => ((pts.map (fun r => r.getD j 0)).sum) / pts.length)

/-- `np.argmax`: the first index attaining the maximum. -/
def argmaxFirst : List ℚ → Nat
  | [] => 0
  | a :: rest =>
    if rest = [] then 0
    else if a < rest.getD (argmaxFirst rest) 0 then argmaxFirst rest + 1 else 0

/-- `min(...)` over a nonempty list of values. -/
def listMin (l : List ℚ) : ℚ := l.foldl min (l.headD 0)

/-- `min([np.sum((x - c)**2) for c in cs])`: squared distance from `x` to
its nearest centroid among `cs`. -/
def minDistTo (cs : List (List ℚ)) (x : List ℚ) : ℚ :=
  listMin (cs.map (fun c => sqDist x c))

/-- The relocation target for an empty cluster `k`
(`kmeans.py` lines 161-181): if `k > 0`, collect
`existing_centroids = [centroids[j] for j in range(k) if cluster_sizes[j] > 0]`
— only the previously placed centroids of NON-empty clusters — and pick the
data point farthest (by squared distance) from its nearest such centroid
(`np.argmax`, first index on ties); with no such centroid, or for `k = 0`,
pick the random data index `rand k`. -/
def emptyReloc (X : List (List ℚ)) (cents : List (List ℚ)) (sizes : List Nat)
    (rand : Nat → Nat) (k : Nat) : List ℚ :=
  if k = 0 then X.getD (rand k) []
  else
    let existing := ((cents.zip sizes).filter (fun p => 0 < p.2)).map (fun p => p.1)
    if existing.isEmpty then X.getD (rand k) []
    else X.getD (argmaxFirst (X.map (minDistTo existing))) []

/-- One iteration of the `for k in range(self.n_clusters)` loop of
`update_centroids`: a non-empty cluster gets the mean of its points and its
size; an empty cluster gets the relocation target and size `0`. -/
def updStep (X : List (List ℚ)) (labels : List Nat) (rand : Nat → Nat)
    (acc : List (List ℚ) × List Nat) (k : Nat) : List (List ℚ) × List Nat :=
  let pts := clusterPoints X labels k
  if pts.isEmpty then
    (acc.1 ++ [emptyReloc X acc.1 acc.2 rand k], acc.2 ++ [0])
  else
    (acc.1 ++ [vecMean pts (X.headD []).length], acc.2 ++ [pts.length])

/-- `KMeans.update_centroids`: returns `(centroids, cluster_sizes)`. -/
def update_centroids (X : List (List ℚ)) (labels : List Nat) (K : Nat)
    (rand : Nat → Nat) : List (List ℚ) × List Nat :=
  (List.range K).foldl (updStep X labels rand) ([], [])

/-- The relocation target as the claim words it: the data point farthest
from its nearest centroid among ALL centroids already placed in this
update (empty-cluster relocations included), a random point only when no
centroid has been placed yet. -/
def emptyRelocSpec (X : List (List ℚ)) (cents : List (List ℚ))
    (rand : Nat → Nat) (k : Nat) : List ℚ :=
  if cents.isEmpty then X.getD (rand k) []
  else X.getD (argmaxFirst (X.map (minDistTo cents))) []

/-- `update_centroids` as the claim describes it. -/
def update_centroids_spec (X : List (List ℚ)) (labels : List Nat) (K : Nat)
    (rand : Nat → Nat) : List (List ℚ) × List Nat :=
  (List.range K).foldl
    (fun acc k =>
      let pts := clusterPoints X labels k
      if pts.isEmpty then
        (acc.1 ++ [emptyRelocSpec X acc.1 rand k], acc.2 ++ [0])
      else
        (acc.1 ++ [vecMean pts (X.headD []).length], acc.2 ++ [pts.length]))
    ([], [])

/-- C3 counterexample: `X = [[0], [10]]`, all points labelled `0`,
`K = 3`.  Cluster 0 gets mean `[5]`; clusters 1 and 2 are empty.  The code
relocates BOTH to `[0]` (the farthest point from `[5]`; the relocated
centroid `[0]` of cluster 1 is invisible to cluster 2 because its
`cluster_sizes` entry is 0), while the claim's rule relocates cluster 2 to
`[10]`, the point farthest from the already-placed set `{[5], [0]}`.  So
the claim's description of `update_centroids` does not match the code. -/
theorem kmeans_empty_policy_counterexample :
    (update_centroids [[0], [10]] [0, 0] 3 (fun _ => 0)).1.getD 2 [] = [0] ∧
    (update_centroids_spec [[0], [10]] [0, 0] 3 (fun _ => 0)).1.getD 2 [] = [10] ∧
    ((update_centroids [[0], [10]] [0, 0] 3 (fun _ => 0)).1.getD 2 [] ≠
      (update_centroids_spec [[0], [10]] [0, 0] 3 (fun _ => 0)).1.getD 2 []) := by
  have h1 : (update_centroids [[0], [10]] [0, 0] 3 (fun _ => 0)).1.getD 2 [] =
      [0] := by
    rw [update_centroids, show List.range 3 = [0, 1, 2] from rfl]
    norm_num [updStep, emptyReloc, clusterPoints, vecMean, minDistTo, listMin,
      sqDist, argmaxFirst, List.range_succ]
  have h2 : (update_centroids_spec [[0], [10]] [0, 0] 3 (fun _ => 0)).1.getD 2 [] =
      [10] := by
    rw [update_centroids_spec, show List.range 3 = [0, 1, 2] from rfl]
    norm_num [emptyRelocSpec, clusterPoints, vecMean, minDistTo, listMin,
      sqDist, argmaxFirst, List.range_succ, List.isEmpty]
  refine ⟨h1, h2, ?_⟩
  rw [h1, h2]
  intro h
  exact absurd (List.head_eq_of_cons_eq h) (by norm_num)

/-- The means of the non-empty clusters with index `< k`, read off directly
from the data and labels (the only previously placed centroids that
`update_centroids` considers when relocating an empty cluster `k`). -/
def nonEmptyMeansBefore (X : List (List ℚ)) (labels : List Nat) (k : Nat) :
    List (List ℚ) :=
  ((List.range k).filter (fun j => !(clusterPoints X labels j).isEmpty)).map
    (fun j => vecMean (clusterPoints X labels j) (X.headD []).length)

/-- Closed form of the centroid the loop produces for cluster `j`. -/
def centFormula (X : List (List ℚ)) (labels : List Nat) (rand : Nat → Nat)
    (j : Nat) : List ℚ :=
  if (clusterPoints X labels j).isEmpty then
    (if j = 0 then X.getD (rand j) []
     else if (nonEmptyMeansBefore X labels j).isEmpty then X.getD (rand j) []
     else X.getD (argmaxFirst (X.map (minDistTo (nonEmptyMeansBefore X labels j)))) [])
  else vecMean (clusterPoints X labels j) (X.headD []).length

/-- The `existing_centroids` filter applied to the accumulated state picks
exactly the means of the preceding non-empty clusters. -/
theorem existing_eq (X : List (List ℚ)) (labels : List Nat) (rand : Nat → Nat)
    (k : Nat) :
    ((((List.range k).map (centFormula X labels rand)).zip
      ((List.range k).map (fun j => (clusterPoints X labels j).length))).filter
        (fun p => 0 < p.2)).map (fun p => p.1) =
    nonEmptyMeansBefore X labels k := by
  rw [List.zip_map', List.filter_map, List.map_map]
  unfold nonEmptyMeansBefore
  have hfil : ((List.range k).filter
      ((fun p => decide (0 < p.2)) ∘ fun j =>
        (centFormula X labels rand j, (clusterPoints X labels j).length))) =
      ((List.range k).filter (fun j => !(clusterPoints X labels j).isEmpty)) := by
    refine List.filter_congr (fun j _ => ?_)
    simp only [Function.comp]
    have hbe : ∀ x : List (List ℚ), decide (0 < x.length) = !x.isEmpty := by
      intro x
      cases x <;> simp
    exact hbe _
  rw [hfil]
  refine List.map_congr_left (fun j hj => ?_)
  have hne : ¬ (clusterPoints X labels j).isEmpty := by
    have := (List.mem_filter.mp hj).2
    simpa using this
  simp [Function.comp, centFormula, hne]

/-- The fold of `update_centroids` computes the closed forms. -/
theorem update_centroids_closed (X : List (List ℚ)) (labels : List Nat)
    (rand : Nat → Nat) :
    ∀ K, update_centroids X labels K rand =
      ((List.range K).map (centFormula X labels rand),
       (List.range K).map (fun j => (clusterPoints X labels j).length)) := by
  intro K
  induction K with
  | zero => rfl
  | succ k ih =>
    unfold update_centroids at ih ⊢
    rw [List.range_succ, List.foldl_append, ih]
    simp only [List.foldl_cons, List.foldl_nil]
    rw [List.map_append, List.map_append]
    unfold updStep
    by_cases he : (clusterPoints X labels k).isEmpty
    · rw [if_pos he]
      simp only [emptyReloc, existing_eq, List.map_cons, List.map_nil]
      have hc : centFormula X labels rand k =
          (if k = 0 then X.getD (rand k) []
           else if (nonEmptyMeansBefore X labels k).isEmpty then X.getD (rand k) []
           else X.getD (argmaxFirst (X.map
             (minDistTo (nonEmptyMeansBefore X labels k)))) []) := by
        unfold centFormula
        rw [if_pos he]
      rw [hc]
      have hl : (clusterPoints X labels k).length = 0 := by
        rw [← List.isEmpty_iff_length_eq_zero]
        exact he
      simp [hl]
    · rw [if_neg he]
      simp only [List.map_cons, List.map_nil]
      have hc : centFormula X labels rand k =
          vecMean (clusterPoints X labels k) (X.headD []).length := by
        unfold centFormula
        rw [if_neg he]
      rw [hc]

/-- For nonempty input, `np.argmax` returns an index in range. -/
theorem argmaxFirst_lt : ∀ (l : List ℚ), l ≠ [] → argmaxFirst l < l.length := by
  intro l
  induction l with
  | nil => intro h; exact absurd rfl h
  | cons a rest ih =>
    intro _
    unfold argmaxFirst
    by_cases hr : rest = []
    · rw [if_pos hr]
      simp
    · rw [if_neg hr]
      by_cases hcmp : a < rest.getD (argmaxFirst rest) 0
      · rw [if_pos hcmp]
        have := ih hr
        simpa using Nat.succ_lt_succ this
      · rw [if_neg hcmp]
        simp

/-- C3 amended: whenever cluster `k` has no assigned points,
`update_centroids` relocates its centroid to a data point — the point
whose squared distance to the nearest mean of a PRECEDING NON-EMPTY
cluster is maximal (first index on ties), or the uniformly random data
point `rand k` if no preceding cluster is non-empty (in particular for
`k = 0`); centroids relocated earlier in the same update are not
considered, and an empty centroid is never left at its previous
position — the new centroid is always an element of `X`. -/
theorem kmeans_empty_cluster_amended (X : List (List ℚ)) (labels : List Nat)
    (K : Nat) (rand : Nat → Nat) (hX : X ≠ [])
    (hrand : ∀ k, rand k < X.length) (k : Nat) (hk : k < K)
    (hempty : (clusterPoints X labels k).isEmpty) :
    ((update_centroids X labels K rand).1.getD k [] =
      (if k = 0 ∨ (nonEmptyMeansBefore X labels k).isEmpty then
        X.getD (rand k) []
       else X.getD (argmaxFirst (X.map
         (minDistTo (nonEmptyMeansBefore X labels k)))) [])) ∧
    (update_centroids X labels K rand).1.getD k [] ∈ X := by
  rw [update_centroids_closed]
  have hgd : ((List.range K).map (centFormula X labels rand)).getD k [] =
      centFormula X labels rand k := by
    rw [List.getD_eq_getElem _ _ (by simpa using hk)]
    simp
  have hform : centFormula X labels rand k =
      (if k = 0 ∨ (nonEmptyMeansBefore X labels k).isEmpty then
        X.getD (rand k) []
       else X.getD (argmaxFirst (X.map
         (minDistTo (nonEmptyMeansBefore X labels k)))) []) := by
    unfold centFormula
    rw [if_pos hempty]
    by_cases h0 : k = 0
    · rw [if_pos h0, if_pos (Or.inl h0)]
    · rw [if_neg h0]
      by_cases hne : (nonEmptyMeansBefore X labels k).isEmpty
      · rw [if_pos hne, if_pos (Or.inr hne)]
      · rw [if_neg hne, if_neg (by tauto)]
  refine ⟨by rw [hgd, hform], ?_⟩
  rw [hgd, hform]
  have hmem : ∀ i, i < X.length → X.getD i [] ∈ X := by
    intro i hi
    rw [List.getD_eq_getElem _ _ hi]
    exact List.getElem_mem hi
  by_cases hcase : k = 0 ∨ (nonEmptyMeansBefore X labels k).isEmpty
  · rw [if_pos hcase]
    exact hmem _ (hrand k)
  · rw [if_neg hcase]
    refine hmem _ ?_
    have hmap : (X.map (minDistTo (nonEmptyMeansBefore X labels k))) ≠ [] := by
      simpa using hX
    have := argmaxFirst_lt _ hmap
    simpa using this

/-- C3 amended witness: in the concrete counterexample scenario, the empty
cluster 1 is relocated to the data point farthest from the single
non-empty mean, and the result is a data point. -/
theorem kmeans_empty_cluster_amended_witness :
    (update_centroids [[0], [10]] [0, 0] 3 (fun _ => 0)).1.getD 1 [] ∈
      [[(0 : ℚ)], [10]] := by
  have h := kmeans_empty_cluster_amended [[0], [10]] [0, 0] 3 (fun _ => 0)
    (by simp) (fun k => by norm_num) 1 (by omega)
    (by norm_num [clusterPoints])
  exact h.2

end KM

namespace PCAmod

/-!
The PCA standardizer (`pca.py` lines 87-88 and `PCA.__init__` lines
116-133).  `standardize(data)` is `data / data.std(ddof=0, axis=0)` — a
pure per-column rescaling; note that no mean is subtracted.  Real numbers
are used because the standard deviation is a square root.
-/

/-- The values of column `j` of a row-major matrix. -/
def colVals (rows : List (List ℝ)) (j : Nat) : List ℝ :=
  rows.map (fun r => r.getD j 0)

/-- Arithmetic mean of a list of reals. -/
noncomputable def listMean (l : List ℝ) : ℝ := l.sum / l.length

/-- Population variance (`ddof = 0`). -/
noncomputable def popVar (l : List ℝ) : ℝ :=
  ((l.map (fun x => (x - listMean l) ^ 2)).sum) / l.length

/-- Population standard deviation, `data.std(ddof=0, axis=0)` for one
column. -/
noncomputable def popStd (l : List ℝ) : ℝ := Real.sqrt (popVar l)

/-- `standardize` (`pca.py` line 87-88):
`data / data.std(ddof=0, axis=0)` — entry `(i, j)` is divided by the
population standard deviation of column `j`; the mean is NOT subtracted. -/
noncomputable def standardize (rows : List (List ℝ)) : List (List ℝ) :=
  rows.map (fun r => r.mapIdx (fun j x => x / popStd (colVals rows j)))

/-- The matrix stored as `PCA.data` (`pca.py` lines 117-122): the groups
are pooled with `np.vstack` and then standardized (the subsequent reshape
rearranges but does not change the entries). -/
noncomputable def PCA_data (groups : List (List (List ℝ))) : List (List ℝ) :=
  standardize groups.flatten

/-- A column of the standardized matrix is the original column divided by
its population standard deviation. -/
theorem colVals_standardize (rows : List (List ℝ)) (j : Nat) :
    colVals (standardize rows) j =
      (colVals rows j).map (fun x => x / popStd (colVals rows j)) := by
  unfold colVals standardize
  rw [List.map_map, List.map_map]
  refine List.map_congr_left (fun r _ => ?_)
  simp only [Function.comp]
  by_cases hj : j < r.length
  · rw [List.getD_eq_getElem _ _ (by simpa using hj),
      List.getD_eq_getElem _ _ hj]
    rw [List.getElem_mapIdx]
    rfl
  · rw [List.getD_eq_default _ _ (by simpa using hj),
      List.getD_eq_default _ _ (by omega)]
    rw [zero_div]

/-- Mean commutes with dividing every entry by a constant. -/
theorem listMean_map_div (l : List ℝ) (c : ℝ) :
    listMean (l.map (fun x => x / c)) = listMean l / c := by
  unfold listMean
  rw [List.length_map]
  have hs : (l.map (fun x => x / c)).sum = l.sum / c := by
    induction l with
    | nil => simp
    | cons a t ih => simp [ih, add_div]
  rw [hs, div_right_comm]

/-- Population variance scales with the square of a constant divisor. -/
theorem popVar_map_div (l : List ℝ) (c : ℝ) :
    popVar (l.map (fun x => x / c)) = popVar l / c ^ 2 := by
  unfold popVar
  rw [List.length_map, listMean_map_div, List.map_map]
  simp only [Function.comp_def]
  have hs : ∀ (m : ℝ) (t : List ℝ),
      (t.map (fun x => (x / c - m / c) ^ 2)).sum =
      (t.map (fun x => (x - m) ^ 2)).sum / c ^ 2 := by
    intro m t
    induction t with
    | nil => simp
    | cons a t ih =>
      simp only [List.map_cons, List.sum_cons, ih, add_div]
      rw [div_sub_div_same, div_pow]
  rw [hs, div_right_comm]

/-- C2 counterexample: `standardize` does not mean-center.  For the pooled
matrix `[[1], [3]]` (a dataset `generateGaussian` can produce), the stored
`PCA.data` column has mean `2`, not `0`: the claim's "mean 0 per feature"
is false of the code. -/
theorem pca_standardize_counterexample :
    listMean (colVals (PCA_data [[[1], [3]]]) 0) ≠ 0 := by
  have hfl : PCA_data [[[1], [3]]] = standardize [[1], [3]] := by
    unfold PCA_data
    simp
  rw [hfl, colVals_standardize]
  have h1 : colVals [[(1 : ℝ)], [3]] 0 = [1, 3] := rfl
  rw [h1, listMean_map_div]
  have h2 : popStd [(1 : ℝ), 3] = 1 := by
    unfold popStd
    have hv : popVar [(1 : ℝ), 3] = 1 := by
      norm_num [popVar, listMean]
    rw [hv, Real.sqrt_one]
  rw [h2]
  norm_num [listMean]

/-- C2 amended: `standardize` rescales each pooled feature column by its
population standard deviation before the covariance step, so every column
with nonzero variance has variance exactly `1` in the stored `PCA.data`;
but no mean-centering happens, so column means are in general nonzero. -/
theorem pca_standardize_amended (rows : List (List ℝ)) (j : Nat)
    (hv : 0 < popVar (colVals rows j)) :
    popVar (colVals (standardize rows) j) = 1 := by
  rw [colVals_standardize, popVar_map_div]
  unfold popStd
  rw [Real.sq_sqrt (le_of_lt hv)]
  exact div_self (ne_of_gt hv)

/-- C2 amended witness: the column `[1, 3]` has variance `1` (already), and
after standardization its variance is exactly `1`. -/
theorem pca_standardize_amended_witness :
    popVar (colVals (standardize [[1], [3]]) 0) = 1 := by
  apply pca_standardize_amended
  have h1 : colVals [[(1 : ℝ)], [3]] 0 = [1, 3] := rfl
  rw [h1]
  norm_num [popVar, listMean]

end PCAmod

namespace PCAgen

/-!
The validation prologue of `generateGaussian` (`pca.py` lines 26-72).
Explicitly supplied covariance matrices must form a rectangular
`num_sets × dim × dim` stack (`assert covs.shape[1:] == (dim, dim)`), each
of the first `num_sets` of them must be symmetric
(`assert isSymmetric(covs[i])` for `i in range(num_sets)`), and supplied
means must have rows of length `dim` (`assert means.shape[1] == dim`) —
all before the sampling loop runs.  A failed `assert` (or an out-of-range
index) aborts the call; aborts are modelled by `Except.error`.
-/

/-- `isSymmetric(A, tol=1e-8)` (`pca.py` lines 23-24):
`np.allclose(A, A.T, atol=1e-8)` — entrywise
`|A[i][j] - A.T[i][j]| <= atol + rtol * |A.T[i][j]|` with numpy's default
`rtol = 1e-5` (the shape check has already forced `A` square here). -/
def isSymmetric (m : List (List ℚ)) : Bool :=
  (List.range m.length).all (fun i =>
    (List.range m.length).all (fun j =>
      |((m.getD i []).getD j 0) - ((m.getD j []).getD i 0)| ≤
        1 / 10 ^ 8 + (1 / 10 ^ 5) * |(m.getD j []).getD i 0|))

/-- The shape check `np.array(covs).shape[1:] == (dim, dim)`: a rectangular
stack of `dim × dim` matrices. -/
def covsShapeOk (covs : List (List (List ℚ))) (dim : Nat) : Bool :=
  covs.all (fun m => m.length == dim && m.all (fun row => row.length == dim))

/-- The check `np.array(means).shape[1] == dim`. -/
def meansShapeOk (means : List (List ℚ)) (dim : Nat) : Bool :=
  means.all (fun r => r.length == dim)

/-- The loop `for i in range(num_sets): assert isSymmetric(covs[i])`,
starting at index `i` with `n` indices left; an out-of-range index is a
Python `IndexError`, also an abort. -/
def checkSyms (cs : List (List (List ℚ))) : Nat → Nat → Except String Unit
  | 0, _ => .ok ()
  | n + 1, i =>
    if i < cs.length then
      if isSymmetric (cs.getD i []) then checkSyms cs n (i + 1)
      else .error "Covariance matrix is not symmetric."
    else .error "list index out of range"

/-- `generateGaussian` (`pca.py` lines 26-72) at the granularity of its
validation: the random draws (`generateCovariances`, `np.random.randn`
means, `np.random.multivariate_normal` rows) enter as the function
parameters `randCovs` and `sample` (the latter drawing from the
resolved means and covariances); the validation
arithmetic is embedded exactly, and the sampled dataset of shape
`(num_sets, num_points, dim)` is only assembled after every check has
passed. -/
def generateGaussian_model (num_sets num_points dim : Nat)
    (means : Option (List (List ℚ))) (covs : Option (List (List (List ℚ))))
    (randCovs : Nat → List (List ℚ))
    (sample : Nat → Nat → List ℚ) :
    Except String (List (List (List ℚ))) :=
  let covsE : Except String (List (List (List ℚ))) :=
    match covs with
    | none => .ok ((List.range num_sets).map randCovs)
    | some cs =>
      if covsShapeOk cs dim then
        match checkSyms cs num_sets 0 with
        | .ok _ => .ok cs
        | .error e => .error e
      else .error "Cov matrix must be dim x dim"
  match covsE with
  | .error e => .error e
  | .ok _ =>
    match means with
    | none =>
      .ok ((List.range num_sets).map
        (fun i => (List.range num_points).map (fun p => sample i p)))
    | some ms =>
      if meansShapeOk ms dim then
        .ok ((List.range num_sets).map
          (fun i => (List.range num_points).map (fun p => sample i p)))
      else .error "Mean must match dim"

/-- `checkSyms` aborts at the first asymmetric matrix of the window. -/
theorem checkSyms_hits_error (cs : List (List (List ℚ))) :
    ∀ (n i m : Nat), i ≤ m → m < i + n → m < cs.length →
    isSymmetric (cs.getD m []) = false →
    (∀ j, i ≤ j → j < m → isSymmetric (cs.getD j []) = true) →
    checkSyms cs n i = .error "Covariance matrix is not symmetric." := by
  intro n
  induction n with
  | zero =>
    intro i m h1 h2
    omega
  | succ n ih =>
    intro i m h1 h2 h3 h4 h5
    unfold checkSyms
    by_cases him : i = m
    · subst him
      rw [if_pos h3, if_neg (by rw [h4]; exact Bool.false_ne_true)]
    · have hlt : i < m := by omega
      rw [if_pos (by omega), if_pos (h5 i (le_refl i) hlt)]
      exact ih (i + 1) m (by omega) (by omega) h3 h4
        (fun j hj1 hj2 => h5 j (by omega) hj2)

/-- C8: `generateGaussian` aborts eagerly, before any data is produced, on
each invalid configuration: (a) explicit covariance matrices whose shape
differs from `(dim, dim)`; (b) an explicit, well-shaped stack whose first
offending matrix (index `m < num_sets`) fails the symmetry test; (c)
supplied means with a row whose length differs from `dim`.  In each case
the result is the corresponding error — for every sampler, so no data
depends on the invalid configuration. -/
theorem generateGaussian_validation (num_sets num_points dim : Nat)
    (randCovs : Nat → List (List ℚ))
    (sample : Nat → Nat → List ℚ) :
    (∀ (ms : Option (List (List ℚ))) (cs : List (List (List ℚ))),
      covsShapeOk cs dim = false →
      generateGaussian_model num_sets num_points dim ms (some cs)
        randCovs sample = .error "Cov matrix must be dim x dim") ∧
    (∀ (ms : Option (List (List ℚ))) (cs : List (List (List ℚ))) (m : Nat),
      covsShapeOk cs dim = true → m < num_sets → m < cs.length →
      isSymmetric (cs.getD m []) = false →
      (∀ j, j < m → isSymmetric (cs.getD j []) = true) →
      generateGaussian_model num_sets num_points dim ms (some cs)
        randCovs sample =
        .error "Covariance matrix is not symmetric.") ∧
    (∀ msBad : List (List ℚ), meansShapeOk msBad dim = false →
      generateGaussian_model num_sets num_points dim (some msBad) none
        randCovs sample = .error "Mean must match dim") := by
  refine ⟨?_, ?_, ?_⟩
  · intro ms cs h
    simp [generateGaussian_model, h]
  · intro ms cs m hshape hm1 hm2 hsym hpre
    have hchk : checkSyms cs num_sets 0 =
        .error "Covariance matrix is not symmetric." :=
      checkSyms_hits_error cs num_sets 0 m (by omega) (by omega) hm2 hsym
        (fun j _ hj2 => hpre j hj2)
    simp [generateGaussian_model, hshape, hchk]
  · intro msBad h
    simp [generateGaussian_model, h]

/-- C8 witness: a `1 × 1 × 2` covariance stack against `dim = 2`, the
asymmetric matrix `[[0, 1], [0, 0]]`, and a mean row of length 1 against
`dim = 2` each abort with the corresponding error. -/
theorem generateGaussian_validation_witness :
    generateGaussian_model 1 1 2 none (some [[[1, 0]]])
      (fun _ => []) (fun _ _ => []) =
      .error "Cov matrix must be dim x dim" ∧
    generateGaussian_model 1 1 2 none (some [[[0, 1], [0, 0]]])
      (fun _ => []) (fun _ _ => []) =
      .error "Covariance matrix is not symmetric." ∧
    generateGaussian_model 1 1 2 (some [[5]]) none
      (fun _ => []) (fun _ _ => []) =
      .error "Mean must match dim" := by
  have h := generateGaussian_validation 1 1 2
    (fun _ => []) (fun _ _ => [])
  refine ⟨h.1 none [[[1, 0]]] (by decide), ?_, h.2.2 [[5]] (by decide)⟩
  refine h.2.1 none [[[0, 1], [0, 0]]] 0 (by decide) (by omega) (by decide)
    ?_ (by omega)
  norm_num [isSymmetric, List.range_succ]

end PCAgen

namespace Det

/-!
Seeding discipline of the five trace entry points (`run_em_trace`,
`run_kmeans_trace`, `run_linreg_trace`, `run_regularization_trace`,
`run_pca_trace`).  The process-wide numpy RNG is modelled as explicit
state of an abstract type `σ`; `np.random.seed(n)` replaces that state by
`reseed n`, a function of `n` alone.  Every entry point reseeds from its
caller-supplied seed before any draw, so its trace cannot depend on the
RNG state left behind by earlier requests; the samplers and solvers enter
as parameters threading the state.  `run_kmeans_trace` additionally reads
`time.perf_counter()` twice (`kmeans.py` lines 531, 539) and stores
`summary.runtime_ms`, so its trace also depends on the two clock
readings, which are modelled as explicit inputs. -/

/-- The global numpy RNG: `reseed n` is the state after
`np.random.seed(n)`. -/
structure Rng (σ : Type) where
  reseed : Nat → σ

/-- `run_em_trace` (`em.py` lines 146-176): `GMM3d` executes
`np.random.seed(seed)` (line 18) before any draw; the dataset sampling and
the `EM.__init__` draws (`initialized_params`) then thread the post-reseed
state, and the envelope assembly is a pure function of the drawn
material. -/
def runEmTraceR {σ α β : Type} (R : Rng σ) (sampleAll : σ → α × σ)
    (solve : α → β) (seed : Nat) (_s0 : σ) : β × σ :=
  let p := sampleAll (R.reseed seed)
  (solve p.1, p.2)

/-- `run_pca_trace` (`pca.py` lines 140-172): `generateGaussian` executes
`np.random.seed(seed)` (line 38) before any draw. -/
def runPcaTraceR {σ α β : Type} (R : Rng σ) (sampleAll : σ → α × σ)
    (solve : α → β) (seed : Nat) (_s0 : σ) : β × σ :=
  let p := sampleAll (R.reseed seed)
  (solve p.1, p.2)

/-- `run_linreg_trace` and `run_regularization_trace`:
`generate_linear_data` / `generate_polynomial_data` reseed with the
dataset seed (`linreg.py` line 29, `regularization.py` line 32), and the
model constructor reseeds with the constant 42 before drawing the initial
weights (`linreg.py` line 95, `regularization.py` lines 93/97/221/225). -/
def runRegressionTraceR {σ α γ β : Type} (R : Rng σ)
    (sampleData : σ → α × σ) (sampleW : σ → γ × σ)
    (solve : α → γ → β) (seed : Nat) (_s0 : σ) : β × σ :=
  let pd := sampleData (R.reseed seed)
  let pw := sampleW (R.reseed 42)
  (solve pd.1 pw.1, pw.2)

/-- The `run_kmeans_trace` envelope at the level this claim needs: the
seed-determined payload and the wall-clock `summary.runtime_ms` field. -/
structure KmTrace (β : Type) where
  payload : β
  runtime_ms : ℚ
deriving DecidableEq

/-- `run_kmeans_trace` (`kmeans.py` lines 479-577): `generate_data`
reseeds from the dataset `random_state`, `initialize_centroids` reseeds
from the algorithm `random_state` (line 41), and the summary records
`runtime_ms = (time.perf_counter() - start_time) * 1000.0` from the two
clock readings `t0`, `t1`. -/
def runKmeansTraceR {σ α γ β : Type} (R : Rng σ)
    (sampleData : σ → α × σ) (sampleC : σ → γ × σ) (solve : α → γ → β)
    (dseed aseed : Nat) (t0 t1 : ℚ) (_s0 : σ) : KmTrace β × σ :=
  let pd := sampleData (R.reseed dseed)
  let pc := sampleC (R.reseed aseed)
  ({ payload := solve pd.1 pc.1, runtime_ms := (t1 - t0) * 1000 }, pc.2)

/-- C7 counterexample: with identical parameters and seeds, two
`run_kmeans_trace` invocations whose `perf_counter` intervals differ
(1 time unit vs 2) return different traces — `summary.runtime_ms` is
wall-clock time, not a function of `(dataset_params, algo_params)` — so
the kmeans trace is not a deterministic function of its inputs alone and
bit-identical repetition fails. -/
theorem kmeans_trace_not_bit_identical :
    (runKmeansTraceR (σ := Nat) (α := Nat) (γ := Nat) (β := Nat)
        ⟨fun n => n⟩ (fun s => (s, s)) (fun s => (s, s)) (fun a b => a + b)
        42 42 0 1 0).1 ≠
    (runKmeansTraceR ⟨fun n => n⟩ (fun s => (s, s)) (fun s => (s, s))
        (fun a b => a + b) 42 42 0 2 0).1 := by
  simp only [runKmeansTraceR, ne_eq, KmTrace.mk.injEq]
  intro h
  have := h.2
  norm_num at this

/-- C7 amended: each trace entry point reseeds the global RNG from its
caller-supplied seed before any draw, so for fixed
`(dataset_params, algo_params)` the traces of `run_em_trace`,
`run_pca_trace`, `run_linreg_trace` and `run_regularization_trace` are
deterministic functions of their inputs — independent of the RNG state a
previous request left behind — and two sequential invocations are
identical; `run_kmeans_trace` is deterministic in the same way except for
the wall-clock `summary.runtime_ms` field: its payload is independent of
both the prior RNG state and the clock. -/
theorem trace_determinism_amended :
    (∀ (σ α β : Type) (R : Rng σ) (sampleAll : σ → α × σ) (solve : α → β)
      (seed : Nat) (s s' : σ),
      (runEmTraceR R sampleAll solve seed s).1 =
        (runEmTraceR R sampleAll solve seed s').1) ∧
    (∀ (σ α β : Type) (R : Rng σ) (sampleAll : σ → α × σ) (solve : α → β)
      (seed : Nat) (s s' : σ),
      (runPcaTraceR R sampleAll solve seed s).1 =
        (runPcaTraceR R sampleAll solve seed s').1) ∧
    (∀ (σ α γ β : Type) (R : Rng σ) (sampleData : σ → α × σ)
      (sampleW : σ → γ × σ) (solve : α → γ → β) (seed : Nat) (s s' : σ),
      (runRegressionTraceR R sampleData sampleW solve seed s).1 =
        (runRegressionTraceR R sampleData sampleW solve seed s').1) ∧
    (∀ (σ α γ β : Type) (R : Rng σ) (sampleData : σ → α × σ)
      (sampleC : σ → γ × σ) (solve : α → γ → β) (dseed aseed : Nat)
      (t0 t1 t0' t1' : ℚ) (s s' : σ),
      (runKmeansTraceR R sampleData sampleC solve dseed aseed t0 t1 s).1.payload =
        (runKmeansTraceR R sampleData sampleC solve dseed aseed t0' t1' s').1.payload) := by
  refine ⟨?_, ?_, ?_, ?_⟩
  · intro σ α β R sampleAll solve seed s s'
    rfl
  · intro σ α β R sampleAll solve seed s s'
    rfl
  · intro σ α γ β R sampleData sampleW solve seed s s'
    rfl
  · intro σ α γ β R sampleData sampleC solve dseed aseed t0 t1 t0' t1' s s'
    rfl

end Det
